import Mathlib

/-!
# Verification of the noms ordered-Set facade (go/types/set.go)

Shallow embedding of the `Set` facade from `go/types/set.go` of the noms
repository. The facade itself (construction, membership, iteration,
positional access, equality, diff entry points, streaming construction) is
translated directly from the Go source. The underlying chunked-tree engine
(sequenceChunker, sequenceCursor, the orderedSequenceDiff* algorithms and
the content hash) is not part of the given source; those parts are modelled
from the specification, as marked in their doc comments.

Values: the engine is generic over any value type with a consistent total
order and equality (`Value.Less` / `Value.Equals`); we model this with a
`LinearOrder`, so `Equals` is propositional equality and `Less` is `<`.
-/

namespace Noms

variable {α : Type} [LinearOrder α]

/-- Modelled from the spec: the physical tree of content-defined chunks is
not in the given source (only its facade is).  The spec guarantees the
chunker is deterministic — the same ordered item stream always yields a
bit-identical tree — and every facade operation factors through the
flattened, in-order sequence of leaf items, so we model a sequence (of any
level) by its flattened list of leaf values. -/
structure Set (α : Type) where
  seq : List α
deriving DecidableEq

/-- `newSet` from set.go: wraps a root sequence (the lazily computed memoized
hash pointer is a caching detail with no observable value semantics). -/
def newSet (seq : List α) : Set α :=
  ⟨seq⟩

/-- Modelled from the spec: `sequenceChunker` (not in the given source)
consumes an ordered stream of items via `Append` and produces the root
sequence at `Done`; by the determinism guarantee we track exactly the
stream of appended items. -/
structure sequenceChunker (α : Type) where
  items : List α

/-- `newEmptySetSequenceChunker` from set.go (chunker state modelled from the
spec; the ValueReader/ValueWriter plumbing has no value semantics). -/
def newEmptySetSequenceChunker (α : Type) : sequenceChunker α :=
  ⟨[]⟩

/-- Modelled from the spec: appending one item to the chunker's stream. -/
def sequenceChunker.Append (ch : sequenceChunker α) (v : α) : sequenceChunker α :=
  ⟨ch.items ++ [v]⟩

/-- Modelled from the spec: `Done` closes every open level and returns the
root sequence, whose flattened leaf items are exactly the appended stream. -/
def sequenceChunker.Done (ch : sequenceChunker α) : List α :=
  ch.items

/-- The dedup loop inside `buildSetData` (set.go lines 220-229): walks the
sorted slice keeping `last`; when the next value is not `Equals` to `last`
it emits `last`; after the loop the final `last` is appended. -/
def buildSetDataLoop (last : α) : List α → List α
  | [] => [last]
  | v :: rest =>
    if v = last then buildSetDataLoop v rest
    else last :: buildSetDataLoop v rest

/-- `buildSetData` from set.go: empty input yields the empty slice;
otherwise the input is stably sorted by the value order and deduplicated by
value equality via the `last`-tracking loop. -/
def buildSetData (values : List α) : List α :=
  match values.insertionSort (· ≤ ·) with
  | [] => []
  | x :: rest => buildSetDataLoop x rest

/-- `NewSet` from set.go: sort + dedup via `buildSetData`, then feed each
value in order to a fresh set sequence chunker and wrap the finished root. -/
def NewSet (v : List α) : Set α :=
  newSet (((buildSetData v).foldl sequenceChunker.Append
    (newEmptySetSequenceChunker α)).Done)

/-- Modelled from the spec: the content hash is an opaque, deterministic,
collision-resistant function of the full canonical contents of the tree.
Determinism plus assumed collision resistance make it an injective function
of the canonical contents, so we represent a digest by the canonical
contents themselves. -/
abbrev HashDigest (α : Type) : Type := List α

/-- Modelled from the spec: `getHash` computes the digest of a Set's full
canonical contents (its flattened value sequence). -/
def getHash (s : Set α) : HashDigest α :=
  s.seq

/-- `Set.Hash` from set.go: returns the content hash (the lazy memoization
into the `h` pointer caches exactly `getHash s` and is value-transparent). -/
def Set.Hash (s : Set α) : HashDigest α :=
  getHash s

/-- `Set.Equals` from set.go: equality is decided by comparing the two
content hashes, not by traversing the trees. -/
def Set.Equals (s other : Set α) : Bool :=
  decide ((Set.Hash s) = (Set.Hash other))

/-- `Set.Len` from set.go via `seq.numLeaves()`: the number of leaf items,
which for the flattened model is the length of the sequence. -/
def Set.Len (s : Set α) : Nat :=
  s.seq.length

/-- `Set.Empty` from set.go. -/
def Set.Empty (s : Set α) : Bool :=
  decide ((Set.Len s) = 0)

/-- The data-model invariant of a set tree (spec §3): the flattened leaf
run is strictly increasing by value order, with no duplicates.  Every Set
produced by the correct constructors satisfies it. -/
def Set.WF (s : Set α) : Prop :=
  List.Chain' (· < ·) s.seq

/-- `Set.First` from set.go: a cursor parked at the start of the sequence
(`newCursorAt(seq, emptyKey, ...)`); when the cursor is invalid (empty set)
the function returns nil, modelled as `none`, else the current item. -/
def Set.First (s : Set α) : Option α :=
  s.seq.head?

/-- The error category for `At` (spec §7: ContractViolation / OutOfRange). -/
inductive SetErr : Type
  | outOfRange
deriving DecidableEq

/-- `Set.At` from set.go: panics with an out-of-bounds error when
`idx >= Len()`, otherwise positions a cursor at flattened index `idx` and
returns the current value.  The panic is modelled as `Except.error`. -/
def Set.At (s : Set α) (idx : Nat) : Except SetErr α :=
  if h : idx ≥ Set.Len s then Except.error SetErr.outOfRange
  else Except.ok (s.seq.get ⟨idx, by simpa [Set.Len] using Nat.lt_of_not_le h⟩)

/-- Modelled from the spec: `newCursorAtValue` seeks (by binary search over
ordered node contents) to the first leaf item that is not less than the
probe value, or to the end position; over the flattened sorted sequence
this is the first element `x` with `v ≤ x`.  `Has` then checks
`cur.valid() && cur.current().Equals(v)` (set.go lines 167-170). -/
def cursorSeekHas : List α → α → Bool
  | [], _ => false
  | x :: rest, v => if v ≤ x then decide (x = v) else cursorSeekHas rest v

/-- `Set.Has` from set.go: cursor seek to the value plus an equality check
at the found position. -/
def Set.Has (s : Set α) (v : α) : Bool :=
  cursorSeekHas s.seq v

/-- `Set.IterAll` / `Set.Iter` from set.go walk a cursor from the start of
the sequence visiting every value in order; `toSlice` is the list of values
such an iteration yields. -/
def Set.toSlice (s : Set α) : List α :=
  s.seq

/-- The fatal contract-violation categories of spec §7 raised by
`d.PanicIfTrue` / `d.PanicIfFalse` in set.go, modelled as error values. -/
inductive ContractViolation : Type
  | nilValue
  | outOfOrder
deriving DecidableEq

/-- The consumer loop of `NewStreamingSet` (set.go lines 46-53), translated
verbatim: for each incoming channel value (`none` models a nil Value) it
panics if the value is nil; then, only when `lastV` is non-nil, it panics
unless `lastV == nil || lastV.Less(v)`; then appends to the chunker.  Note
that, as in the source, `lastV` is never reassigned inside the loop. -/
def streamingLoop (ch : sequenceChunker α) (lastV : Option α) :
    List (Option α) → Except ContractViolation (sequenceChunker α)
  | [] => Except.ok ch
  | v? :: vals =>
    match v? with
    | none => Except.error ContractViolation.nilValue
    | some v =>
      match lastV with
      | some lastV' =>
        if lastV' < v then streamingLoop (ch.Append v) lastV vals
        else Except.error ContractViolation.outOfOrder
      | none => streamingLoop (ch.Append v) lastV vals

/-- `NewStreamingSet` from set.go: runs the consumer loop over the whole
input stream starting from an empty chunker and a nil `lastV`, and, if no
contract violation fired, delivers the finished Set built from the
chunker's root. -/
def NewStreamingSet (vals : List (Option α)) : Except ContractViolation (Set α) :=
  match streamingLoop (newEmptySetSequenceChunker α) none vals with
  | Except.error e => Except.error e
  | Except.ok ch => Except.ok (newSet ch.Done)

/-- The ordering assertion inside `makeSetLeafChunkFn` (set.go lines
237-243): walking the items of one leaf chunk, each must satisfy
`lastValue == nil || lastValue.Less(v)`; returns whether every check
passes. -/
def leafChunkCheckLoop (lastValue : Option α) : List α → Bool
  | [] => true
  | v :: rest =>
    (match lastValue with
     | none => true
     | some lv => decide (lv < v)) && leafChunkCheckLoop (some v) rest

/-- The ordering contract `makeSetLeafChunkFn` enforces on the items handed
to it for a single leaf chunk. -/
def makeSetLeafChunkCheck (items : List α) : Bool :=
  leafChunkCheckLoop none items

/-- The kind tag of a diff change event (types.ValueChanged). -/
inductive DiffChangeType : Type
  | added
  | removed
deriving DecidableEq

/-- A change event emitted on the diff output channel. -/
structure ValueChanged (α : Type) where
  changeType : DiffChangeType
  v : α
deriving DecidableEq

/-- Modelled from the spec: the left-to-right diff algorithm (not in the
given source) walks both flattened sequences in lock-step sorted-merge
fashion, emitting `removed` for values only in `last` and `added` for
values only in the current tree, in ascending value order. -/
def orderedSequenceDiffLeftRight : List α → List α → List (ValueChanged α)
  | [], [] => []
  | [], b :: bs => ⟨DiffChangeType.added, b⟩ :: orderedSequenceDiffLeftRight [] bs
  | a :: as, [] => ⟨DiffChangeType.removed, a⟩ :: orderedSequenceDiffLeftRight as []
  | a :: as, b :: bs =>
    if a = b then orderedSequenceDiffLeftRight as bs
    else if a < b then
      ⟨DiffChangeType.removed, a⟩ :: orderedSequenceDiffLeftRight as (b :: bs)
    else
      ⟨DiffChangeType.added, b⟩ :: orderedSequenceDiffLeftRight (a :: as) bs
termination_by l r => l.length + r.length

/-- Modelled from the spec: the top-down diff must produce the same set of
change events as left-to-right (only delivery order and latency may
differ); the model fixes ascending order for it as well. -/
def orderedSequenceDiffTopDown (last current : List α) : List (ValueChanged α) :=
  orderedSequenceDiffLeftRight last current

/-- Modelled from the spec: the hybrid diff also produces the same set of
change events as the other two strategies. -/
def orderedSequenceDiffBest (last current : List α) : List (ValueChanged α) :=
  orderedSequenceDiffLeftRight last current

/-- `Set.Diff` from set.go: if the two Sets are `Equals` (hash comparison)
return immediately having emitted nothing, else run the top-down diff. -/
def Set.Diff (s last : Set α) : List (ValueChanged α) :=
  if Set.Equals s last then [] else orderedSequenceDiffTopDown last.seq s.seq

/-- `Set.DiffHybrid` from set.go: the same up-front hash short-circuit,
then the hybrid algorithm. -/
def Set.DiffHybrid (s last : Set α) : List (ValueChanged α) :=
  if Set.Equals s last then [] else orderedSequenceDiffBest last.seq s.seq

/-- `Set.DiffLeftRight` from set.go: the same up-front hash short-circuit,
then the left-to-right streaming algorithm. -/
def Set.DiffLeftRight (s last : Set α) : List (ValueChanged α) :=
  if Set.Equals s last then [] else orderedSequenceDiffLeftRight last.seq s.seq

omit [LinearOrder α] in
theorem sequenceChunker_foldl_Done (l : List α) (ch : sequenceChunker α) :
    (l.foldl sequenceChunker.Append ch).Done = ch.items ++ l := by
  induction l generalizing ch with
  | nil => simp [sequenceChunker.Done]
  | cons v l ih =>
    simp [List.foldl_cons, ih, sequenceChunker.Append, List.append_assoc]

theorem NewSet_seq (v : List α) : (NewSet v).seq = buildSetData v := by
  simp [NewSet, newSet, sequenceChunker_foldl_Done, newEmptySetSequenceChunker]

theorem buildSetDataLoop_exists_cons (l : List α) (last : α) :
    ∃ t, buildSetDataLoop last l = last :: t := by
  induction l generalizing last with
  | nil => exact ⟨[], rfl⟩
  | cons v rest ih =>
    by_cases h : v = last
    · subst h
      obtain ⟨t, ht⟩ := ih v
      exact ⟨t, by rw [buildSetDataLoop, if_pos rfl, ht]⟩
    · exact ⟨buildSetDataLoop v rest, by rw [buildSetDataLoop, if_neg h]⟩

theorem mem_buildSetDataLoop (l : List α) (last x : α) :
    x ∈ buildSetDataLoop last l ↔ x ∈ last :: l := by
  induction l generalizing last with
  | nil => simp [buildSetDataLoop]
  | cons v rest ih =>
    by_cases h : v = last
    · subst h
      rw [buildSetDataLoop, if_pos rfl, ih v]
      simp [List.mem_cons]
    · rw [buildSetDataLoop, if_neg h]
      simp only [List.mem_cons, ih v]

theorem chain'_lt_buildSetDataLoop (l : List α) (last : α)
    (h : List.Chain' (· ≤ ·) (last :: l)) :
    List.Chain' (· < ·) (buildSetDataLoop last l) := by
  induction l generalizing last with
  | nil => simp [buildSetDataLoop]
  | cons v rest ih =>
    rw [List.chain'_cons] at h
    obtain ⟨hle, hrest⟩ := h
    by_cases hv : v = last
    · subst hv
      simpa [buildSetDataLoop] using ih v hrest
    · rw [buildSetDataLoop, if_neg hv]
      obtain ⟨t, ht⟩ := buildSetDataLoop_exists_cons rest v
      rw [ht, List.chain'_cons]
      exact ⟨lt_of_le_of_ne hle fun hc => hv hc.symm, ht ▸ ih v hrest⟩

theorem buildSetDataLoop_eq_self (l : List α) (last : α)
    (h : List.Chain' (· < ·) (last :: l)) :
    buildSetDataLoop last l = last :: l := by
  induction l generalizing last with
  | nil => rfl
  | cons v rest ih =>
    rw [List.chain'_cons] at h
    obtain ⟨hlt, hrest⟩ := h
    rw [buildSetDataLoop, if_neg (by rintro rfl; exact lt_irrefl _ hlt), ih v hrest]

theorem chain'_lt_buildSetData (v : List α) :
    List.Chain' (· < ·) (buildSetData v) := by
  have hs : List.Sorted (· ≤ ·) (v.insertionSort (· ≤ ·)) :=
    List.sorted_insertionSort (· ≤ ·) v
  unfold buildSetData
  rcases hsort : v.insertionSort (· ≤ ·) with _ | ⟨x, rest⟩
  · simp
  · rw [hsort] at hs
    exact chain'_lt_buildSetDataLoop rest x (List.chain'_iff_pairwise.mpr hs)

theorem mem_buildSetData (v : List α) (x : α) :
    x ∈ buildSetData v ↔ x ∈ v := by
  have hperm := List.perm_insertionSort (· ≤ ·) v
  unfold buildSetData
  rcases hsort : v.insertionSort (· ≤ ·) with _ | ⟨y, rest⟩
  · rw [hsort] at hperm
    simp [hperm.symm.eq_nil]
  · rw [hsort] at hperm
    rw [mem_buildSetDataLoop]
    exact hperm.mem_iff

theorem nodup_buildSetData (v : List α) : (buildSetData v).Nodup := by
  have := List.chain'_iff_pairwise.mp (chain'_lt_buildSetData v)
  exact this.imp ne_of_lt

theorem length_buildSetData (v : List α) :
    (buildSetData v).length = v.toFinset.card := by
  have hset : (buildSetData v).toFinset = v.toFinset := by
    ext x
    simp [List.mem_toFinset, mem_buildSetData]
  rw [← List.toFinset_card_of_nodup (nodup_buildSetData v), hset]

theorem buildSetData_eq_self {v : List α} (h : List.Chain' (· < ·) v) :
    buildSetData v = v := by
  have hs : List.Sorted (· ≤ ·) v :=
    List.chain'_iff_pairwise.mp (h.imp fun _ _ hab => le_of_lt hab)
  cases v with
  | nil => rfl
  | cons x rest =>
    unfold buildSetData
    rw [hs.insertionSort_eq]
    exact buildSetDataLoop_eq_self rest x h

theorem buildSetData_idem (v : List α) :
    buildSetData (buildSetData v) = buildSetData v :=
  buildSetData_eq_self (chain'_lt_buildSetData v)

theorem cursorSeekHas_eq_true_iff {l : List α}
    (hl : List.Pairwise (· ≤ ·) l) (v : α) :
    cursorSeekHas l v = true ↔ v ∈ l := by
  induction l with
  | nil => simp [cursorSeekHas]
  | cons x rest ih =>
    rw [List.pairwise_cons] at hl
    obtain ⟨hx, hrest⟩ := hl
    by_cases hvx : v ≤ x
    · simp only [cursorSeekHas, if_pos hvx, decide_eq_true_eq, List.mem_cons]
      constructor
      · intro h
        exact Or.inl h.symm
      · rintro (h | h)
        · exact h.symm
        · exact le_antisymm (hx v h) hvx
    · simp only [cursorSeekHas, if_neg hvx, ih hrest, List.mem_cons]
      have hne : v ≠ x := fun hc => hvx (le_of_eq hc)
      tauto

theorem streamingLoop_map_some (l : List α) (ch : sequenceChunker α) :
    streamingLoop ch none (l.map some) = Except.ok ⟨ch.items ++ l⟩ := by
  induction l generalizing ch with
  | nil => simp [streamingLoop]
  | cons v l ih =>
    simp [streamingLoop, ih, sequenceChunker.Append, List.append_assoc]

theorem NewStreamingSet_map_some (l : List α) :
    NewStreamingSet (l.map some) = Except.ok (newSet l) := by
  simp [NewStreamingSet, streamingLoop_map_some, newEmptySetSequenceChunker,
    sequenceChunker.Done, newSet]

theorem NewSet_WF (V : List α) : (NewSet V).WF := by
  rw [Set.WF, NewSet_seq]
  exact chain'_lt_buildSetData V

/-- Claim C1: for every finite input collection of values V (possibly with
duplicates), `NewSet(V)` has `Len()` equal to the number of distinct values
in V, and iterating it yields exactly those distinct values, in strictly
ascending value order, with no duplicates. -/
theorem C1_newSet_len_and_order (V : List α) :
    (NewSet V).Len = V.toFinset.card
    ∧ List.Chain' (· < ·) ((NewSet V).toSlice)
    ∧ ((NewSet V).toSlice).Nodup
    ∧ ∀ x, x ∈ (NewSet V).toSlice ↔ x ∈ V := by
  refine ⟨?_, ?_, ?_, ?_⟩
  · rw [Set.Len, NewSet_seq]
    exact length_buildSetData V
  · rw [Set.toSlice, NewSet_seq]
    exact chain'_lt_buildSetData V
  · rw [Set.toSlice, NewSet_seq]
    exact nodup_buildSetData V
  · intro x
    rw [Set.toSlice, NewSet_seq]
    exact mem_buildSetData V x

/-- Claim C2: the claim says feeding a nil value or a non-ascending value to
`NewStreamingSet` fails fast with a ContractViolation, and in particular
[2,1,3] panics.  The code does not do this: `lastV` is never reassigned in
the consumer loop, so the ordering guard can never fire and [2,1,3] flows
through the builder unrejected, yielding an out-of-order sequence — one the
leaf-chunk assertion of `makeSetLeafChunkFn` in the very same file rejects.
The nil-value check, by contrast, does fire. -/
theorem C2_streaming_guard_inert :
    NewStreamingSet [some (2 : ℤ), some 1, some 3] = Except.ok (newSet [2, 1, 3])
    ∧ makeSetLeafChunkCheck [(2 : ℤ), 1, 3] = false
    ∧ NewStreamingSet [some (1 : ℤ), none, some 3] =
        Except.error ContractViolation.nilValue :=
  ⟨rfl, by decide, rfl⟩

/-- Claim C3: for every pair of Sets, `Equals` holds exactly when the two
content hashes are equal — equality is decided by hash comparison. -/
theorem C3_equals_iff_hash_eq (s t : Set α) :
    Set.Equals s t = true ↔ Set.Hash s = Set.Hash t := by
  simp [Set.Equals]

omit [LinearOrder α] in
/-- Claim C4: `At(idx)` fails with OutOfRange exactly when `idx ≥ Len()`,
and otherwise returns the value at flattened position idx; in particular
`NewSet().At(0)` fails with OutOfRange, `NewSet().Len() == 0` and
`NewSet().Empty() == true`. -/
theorem C4_at_bounds (s : Set α) (idx : Nat) :
    (idx ≥ Set.Len s → Set.At s idx = Except.error SetErr.outOfRange)
    ∧ (∀ h : idx < Set.Len s, Set.At s idx = Except.ok (s.seq.get ⟨idx, h⟩))
    ∧ (NewSet ([] : List ℤ)).At 0 = Except.error SetErr.outOfRange
    ∧ (NewSet ([] : List ℤ)).Len = 0
    ∧ (NewSet ([] : List ℤ)).Empty = true := by
  refine ⟨?_, ?_, rfl, rfl, rfl⟩
  · intro h
    simp only [Set.At]
    rw [dif_pos h]
  · intro h
    simp only [Set.At]
    rw [dif_neg (not_le.mpr h)]

theorem C4_witness :
    (NewSet [(5 : ℤ), 7]).At 2 = Except.error SetErr.outOfRange
    ∧ (NewSet ([] : List ℤ)).At 0 = Except.error SetErr.outOfRange :=
  ⟨(C4_at_bounds (NewSet [(5 : ℤ), 7]) 2).1 (by decide),
   (C4_at_bounds (NewSet [(5 : ℤ), 7]) 2).2.2.1⟩

/-- Claim C5: for each of the three diff entry points, diffing against a Set
with an equal hash (in particular a Set against itself) emits zero change
events — the hash-equality short-circuit is checked up front. -/
theorem C5_diff_short_circuit (s t : Set α) (h : Set.Hash s = Set.Hash t) :
    Set.Diff s t = [] ∧ Set.DiffHybrid s t = [] ∧ Set.DiffLeftRight s t = [] := by
  have he : Set.Equals s t = true := by simp [Set.Equals, h]
  simp [Set.Diff, Set.DiffHybrid, Set.DiffLeftRight, he]

theorem C5_witness :
    (NewSet [(1 : ℤ), 2, 3]).Diff (NewSet [(1 : ℤ), 2, 3]) = []
    ∧ (NewSet [(1 : ℤ), 2, 3]).DiffHybrid (NewSet [(1 : ℤ), 2, 3]) = []
    ∧ (NewSet [(1 : ℤ), 2, 3]).DiffLeftRight (NewSet [(1 : ℤ), 2, 3]) = [] :=
  C5_diff_short_circuit (NewSet [(1 : ℤ), 2, 3]) (NewSet [(1 : ℤ), 2, 3]) rfl

/-- Claim C6: `NewSet(V).Has(v)` returns true exactly when v is among the
distinct values of V. -/
theorem C6_has_iff_mem (V : List α) (v : α) :
    (NewSet V).Has v = true ↔ v ∈ V := by
  rw [Set.Has, NewSet_seq,
    cursorSeekHas_eq_true_iff
      (List.chain'_iff_pairwise.mp
        ((chain'_lt_buildSetData V).imp fun _ _ hab => le_of_lt hab))]
  exact mem_buildSetData V v

/-- Claim C7: construction is deterministic — two runs of `NewSet` on
identical input produce identical hashes; moreover, on an already distinct,
ordered collection the chunker sees exactly that item stream, so the hash
is the hash of that canonical stream. -/
theorem C7_deterministic_hash (V W : List α) (h : V = W) :
    (NewSet V).Hash = (NewSet W).Hash
    ∧ (List.Chain' (· < ·) V → (NewSet V).Hash = getHash (newSet V)) := by
  constructor
  · rw [h]
  · intro hc
    simp [Set.Hash, getHash, newSet, NewSet_seq, buildSetData_eq_self hc]

theorem C7_witness :
    (NewSet [(1 : ℤ), 2]).Hash = (NewSet [(1 : ℤ), 2]).Hash
    ∧ (List.Chain' (· < ·) [(1 : ℤ), 2] →
        (NewSet [(1 : ℤ), 2]).Hash = getHash (newSet [(1 : ℤ), 2])) :=
  C7_deterministic_hash [(1 : ℤ), 2] [(1 : ℤ), 2] rfl

/-- Claim C8: round-trip idempotence — rebuilding a Set from the values an
iteration of `NewSet(V)` yields gives a Set that `Equals` the original. -/
theorem C8_roundtrip_idempotent (V : List α) :
    (NewSet ((NewSet V).toSlice)).Equals (NewSet V) = true := by
  simp [Set.Equals, Set.Hash, getHash, Set.toSlice, NewSet_seq, buildSetData_idem]

/-- Claim C9: streaming construction agrees with batch construction — for
every strictly ascending, duplicate-free input stream, `NewStreamingSet`
delivers a Set equal to `NewSet` on the same values. -/
theorem C9_streaming_matches_batch (V : List α) (h : List.Chain' (· < ·) V) :
    NewStreamingSet (V.map some) = Except.ok (NewSet V)
    ∧ ∀ t, NewStreamingSet (V.map some) = Except.ok t →
        Set.Equals t (NewSet V) = true := by
  have h1 : NewStreamingSet (V.map some) = Except.ok (newSet V) :=
    NewStreamingSet_map_some V
  have h2 : NewSet V = newSet V := by
    simp only [NewSet]
    rw [sequenceChunker_foldl_Done, buildSetData_eq_self h]
    rfl
  refine ⟨by rw [h1, h2], ?_⟩
  intro t ht
  rw [h1, h2.symm] at ht
  have := Except.ok.inj ht
  simp [Set.Equals, this]

theorem C9_witness :
    NewStreamingSet [some (1 : ℤ), some 2, some 3] =
      Except.ok (NewSet [(1 : ℤ), 2, 3])
    ∧ ∀ t, NewStreamingSet [some (1 : ℤ), some 2, some 3] = Except.ok t →
        Set.Equals t (NewSet [(1 : ℤ), 2, 3]) = true :=
  C9_streaming_matches_batch [1, 2, 3] (by norm_num)

/-- Claim C10: `First()` on an empty Set returns nil (none) without failing;
on every non-empty (well-formed) Set it returns the least element, the one
at flattened index 0. -/
theorem C10_first_least (s : Set α) :
    (Set.Empty s = true → Set.First s = none)
    ∧ (Set.WF s → Set.Empty s = false →
        ∃ m, Set.First s = some m
          ∧ Set.At s 0 = Except.ok m
          ∧ ∀ v ∈ s.seq, m ≤ v) := by
  constructor
  · intro h
    have hnil : s.seq = [] :=
      List.length_eq_zero.mp (by simpa [Set.Empty, Set.Len] using h)
    simp [Set.First, hnil]
  · intro hwf he
    have hne : s.seq ≠ [] := by
      intro hc
      simp [Set.Empty, Set.Len, hc] at he
    obtain ⟨m, t, hmt⟩ := List.exists_cons_of_ne_nil hne
    refine ⟨m, by simp [Set.First, hmt], ?_, ?_⟩
    · have hlen : ¬ (0 ≥ Set.Len s) := by simp [Set.Len, hmt]
      simp only [Set.At]
      rw [dif_neg hlen]
      simp [hmt]
    · intro v hv
      rw [Set.WF, hmt] at hwf
      rw [hmt] at hv
      rcases List.mem_cons.mp hv with rfl | hv
      · exact le_refl v
      · exact le_of_lt
          ((List.pairwise_cons.mp (List.chain'_iff_pairwise.mp hwf)).1 v hv)

theorem C10_witness :
    ∃ m, (NewSet [(3 : ℤ), 1, 2]).First = some m
      ∧ (NewSet [(3 : ℤ), 1, 2]).At 0 = Except.ok m
      ∧ ∀ v ∈ (NewSet [(3 : ℤ), 1, 2]).seq, m ≤ v :=
  (C10_first_least (NewSet [(3 : ℤ), 1, 2])).2 (NewSet_WF [(3 : ℤ), 1, 2])
    (by decide)

end Noms
